import Mathlib

/-!
# Verification of `cesa::vector<T, max_elements>` (include/cesa/vector.hpp)

`cesa::vector` is a fixed-capacity contiguous sequence container: raw
stack storage for `max_elements` slots of `T`, a live-element count
`size_`, and a member `max_size_` initialised to `max_elements`.

Shallow embedding.  The storage together with `size_` is modelled by the
list `elems` of live element values: slot `i` holds `elems[i]` for
`i < size_`, and slots at and beyond `size_` hold no live value and are
unobservable through the public interface, so they are not represented.
Iterators into the container are modelled by indices, with `size_`
playing `end()`.  A thrown C++ exception is modelled by a `CppException`
value carrying the dynamic type of the thrown object and its `what()`
message; a member function that can throw returns the
(possibly mutated) container state paired with an `Except CppException`
result, so that "the container is unchanged on failure" is a statable
equation between states.
-/

namespace cesa

/-- A thrown C++ exception: the dynamic type of the thrown object and the
string passed to its constructor (its `what()` message). -/
structure CppException where
  typeName : String
  message  : String
deriving DecidableEq

/-- The exception thrown by `vector::at`:
`throw std::out_of_range("index out of range")`. -/
def indexOutOfRange : CppException :=
  { typeName := "std::out_of_range", message := "index out of range" }

/-- The exception thrown by `vector::emplace` when the container is full:
`throw std::out_of_range("vector capacity exceeded")`. -/
def capacityExceeded : CppException :=
  { typeName := "std::out_of_range", message := "vector capacity exceeded" }

/-- State of a `cesa::vector<T, max_elements>` object.  `max_size_` is the
member of that name (initialised to the template parameter
`max_elements` and never written again); `elems` lists the values of the
live slots `storage_[0] .. storage_[size_ - 1]`, so `size_` is
`elems.length`. -/
structure vector (T : Type) where
  max_size_ : Nat
  elems     : List T
deriving DecidableEq

namespace vector

variable {T : Type}

/-- `size()`: returns `size_`. -/
def size (v : vector T) : Nat := v.elems.length

/-- `max_size()`: returns the member `max_size_`. -/
def max_size (v : vector T) : Nat := v.max_size_

/-- `empty()`: `size_ == 0`. -/
def isEmpty (v : vector T) : Bool := v.size == 0

/-- The class invariant `0 <= size_ <= max_elements` (the lower bound is
inherent in `Nat`). -/
def WF (v : vector T) : Prop := v.size ≤ v.max_size_

instance (v : vector T) : Decidable v.WF := by unfold WF; infer_instance

/-- `clear()`: destroys every live element (by `pop_back` loop or by
resetting the count, depending on triviality of the destructor) and
leaves `size_ == 0`. -/
def clear (v : vector T) : vector T := { v with elems := [] }

/-- `at(pos)`: throws `std::out_of_range("index out of range")` when
`pos >= size_`, otherwise returns the element at index `pos`.  The
member never writes the object, so the state comes back unchanged in
both branches. -/
def at' (v : vector T) (pos : Nat) : vector T × Except CppException T :=
  if h : pos ≥ v.size then (v, .error indexOutOfRange)
  else (v, .ok (v.elems.get ⟨pos, Nat.lt_of_not_le h⟩))

/-- `emplace(pos, args...)`, the fundamental mutating primitive.
Throws `std::out_of_range("vector capacity exceeded")` when
`size_ >= max_elements`, before any mutation.  Otherwise computes
`index = (pos == cend() ? size_ : distance(cbegin(), pos))`, shifts
slots `[index, size_)` one to the right by `std::move_backward` when
`index < size_`, placement-constructs the new element at `index`,
increments `size_`, and returns `begin() + index`.  The result pairs the
new state with the index of the inserted element (or the exception). -/
def emplace (v : vector T) (pos : Nat) (x : T) : vector T × Except CppException Nat :=
  if v.size ≥ v.max_size_ then (v, .error capacityExceeded)
  else
    let index := if pos = v.size then v.size else pos
    ({ v with elems := v.elems.take index ++ x :: v.elems.drop index }, .ok index)

/-- `insert(pos, value)` (both the copy and the move overload):
`return emplace(pos, value);`. -/
def insert (v : vector T) (pos : Nat) (x : T) : vector T × Except CppException Nat :=
  emplace v pos x

/-- `push_back(value)` (both overloads): `return *emplace(end(), value);`. -/
def push_back (v : vector T) (x : T) : vector T × Except CppException Nat :=
  emplace v v.size x

/-- `emplace_back(args...)`: `return *emplace(end(), args...);`. -/
def emplace_back (v : vector T) (x : T) : vector T × Except CppException Nat :=
  emplace v v.size x

/-- The loop of `insert(pos, count, value)`:
`while (count-- > 0) { it = insert(it, value); ++it; }` with `it`
modelled as an index.  If the inner `insert` throws, the loop is
abandoned: the state mutated so far is kept and the exception escapes
(third component `some e`); on normal termination the third component is
`none` and the second is the returned iterator. -/
def insertCountLoop (v : vector T) (it count : Nat) (x : T) :
    vector T × Nat × Option CppException :=
  match count with
  | 0 => (v, it, none)
  | Nat.succ c =>
    match insert v it x with
    | (v', .ok i) => insertCountLoop v' (i + 1) c x
    | (v', .error e) => (v', it, some e)

/-- `insert(pos, count, value)`:
`iterator it = begin() + distance(cbegin(), pos);` then the loop. -/
def insert_count (v : vector T) (pos count : Nat) (x : T) :
    vector T × Nat × Option CppException :=
  insertCountLoop v pos count x

/-- The loop of the iterator-range `insert(pos, first, last)`:
`while (first != last) { it = insert(it, *first); ++first; ++it; }`;
the input range `[first, last)` is modelled by the list `vals` of the
values it yields. -/
def insertRangeLoop (v : vector T) (it : Nat) (vals : List T) :
    vector T × Nat × Option CppException :=
  match vals with
  | [] => (v, it, none)
  | x :: rest =>
    match insert v it x with
    | (v', .ok i) => insertRangeLoop v' (i + 1) rest
    | (v', .error e) => (v', it, some e)

/-- `insert(pos, first, last)` (iterator-range overload). -/
def insert_range (v : vector T) (pos : Nat) (vals : List T) :
    vector T × Nat × Option CppException :=
  insertRangeLoop v pos vals

/-- `insert(pos, initializer_list)`:
`return insert(pos, initializer_list.begin(), initializer_list.end());`. -/
def insert_ilist (v : vector T) (pos : Nat) (vals : List T) :
    vector T × Nat × Option CppException :=
  insert_range v pos vals

/-- `erase(pos)`: when `index < size_`, shifts `[index + 1, size_)` one
slot left with `std::move` and pops the (now moved-from) last slot;
otherwise no mutation.  Returns the new state. -/
def erase (v : vector T) (pos : Nat) : vector T :=
  if pos < v.size then
    { v with elems := v.elems.take pos ++ v.elems.drop (pos + 1) }
  else v

/-- `erase(first, last)`, with the iterators modelled by
`index = distance(cbegin(), first)` and `count = distance(first, last)`.
When `index < size_` the slots `[index + count, size_)` are moved into
the gap at `index`; `size_ -= count` happens unconditionally, so the
live slots afterwards are the first `size_ - count` of the resulting
storage. -/
def eraseRange (v : vector T) (index count : Nat) : vector T :=
  if index < v.size then
    { v with elems :=
        (v.elems.take index ++ v.elems.drop (index + count)).take (v.size - count) }
  else
    { v with elems := v.elems.take (v.size - count) }

/-- `pop_back()`: if `size_ > 0`, decrements `size_` and destroys the
element in the last live slot; on an empty container it does nothing and
signals nothing. -/
def pop_back (v : vector T) : vector T :=
  if 0 < v.size then { v with elems := v.elems.take (v.size - 1) } else v

/-- The element-moving loop shared by the move constructor and move
assignment:
`for (size_type i{}; i < other.size_; ++i) emplace_back(std::move(*other.ptr_at(i)));`.
Both members are `noexcept`; the inner `emplace_back` indeed never
throws there, because the destination was just default-constructed or
cleared and has the same `max_elements` as the source, so the error
branch below is unreachable at those call sites and only keeps the
definition total. -/
def moveInLoop (dst : vector T) (vals : List T) : vector T :=
  match vals with
  | [] => dst
  | x :: rest =>
    match emplace_back dst x with
    | (dst', .ok _) => moveInLoop dst' rest
    | (dst', .error _) => dst'

/-- Move construction `vector(vector&& other) noexcept`: the destination
starts default-constructed (same `max_elements` as the source), each
live element of the source is move-emplaced at the back in order,
`size_ = other.size_` is then a no-op, and finally `other.clear()`.
Returns (destination, state the source is left in). -/
def moveCtor (other : vector T) : vector T × vector T :=
  (moveInLoop { max_size_ := other.max_size_, elems := [] } other.elems, clear other)

/-- Move assignment `operator=(vector&& other) noexcept` in the
`this != &other` case (the guard makes self-assignment a no-op): clears
the destination, runs the moving loop, `size_ = other.size_` (a no-op),
then `other.clear()`.  Returns (destination, state the source is left
in). -/
def moveAssign (dst other : vector T) : vector T × vector T :=
  (moveInLoop (clear dst) other.elems, clear other)

/-- `std::equal(lhs.begin(), lhs.end(), rhs.begin())`: compares the
first `lhs.size_` elements pairwise with `T::operator==`.  The call site
reaches it only when the sizes agree (short-circuit `&&`), so the clause
where the second range runs out first is unreachable there. -/
def stdEqual [DecidableEq T] : List T → List T → Bool
  | [], _ => true
  | _ :: _, [] => true
  | a :: as, b :: bs => if a = b then stdEqual as bs else false

/-- `operator==(vector<S, SizeA>& lhs, vector<S, SizeB>& rhs)`:
`lhs.size_ == rhs.size_ && std::equal(lhs.begin(), lhs.end(), rhs.begin())`.
The capacities `SizeA`, `SizeB` (the `max_size_` fields here) may differ
and are never read. -/
def eqOp [DecidableEq T] (lhs rhs : vector T) : Bool :=
  lhs.size == rhs.size && stdEqual lhs.elems rhs.elems

/-- One public mutating call on a vector, with its arguments (positions
and ranges given as indices into the current state). -/
inductive Op (T : Type) where
  | clear
  | push_back (x : T)
  | emplace_back (x : T)
  | pop_back
  | insert (pos : Nat) (x : T)
  | emplace (pos : Nat) (x : T)
  | insert_count (pos count : Nat) (x : T)
  | insert_range (pos : Nat) (vals : List T)
  | insert_ilist (pos : Nat) (vals : List T)
  | erase (pos : Nat)
  | eraseRange (pos count : Nat)

/-- The documented precondition of each call on the current state:
insertion positions lie in `[begin(), end()]`, erased positions denote
live elements, erased ranges lie inside `[begin(), end()]`.  `clear`,
`push_back`, `emplace_back` and `pop_back` have no precondition (a full
container makes the insertions fail gracefully, an empty one makes
`pop_back` a no-op). -/
def Op.Valid (v : vector T) : Op T → Prop
  | .insert pos _ => pos ≤ v.size
  | .emplace pos _ => pos ≤ v.size
  | .insert_count pos _ _ => pos ≤ v.size
  | .insert_range pos _ => pos ≤ v.size
  | .insert_ilist pos _ => pos ≤ v.size
  | .erase pos => pos < v.size
  | .eraseRange pos count => pos + count ≤ v.size
  | _ => True

/-- The state after the call.  Iterator results and escaped exceptions
are dropped: a failed insertion has already produced its final state. -/
def Op.apply (v : vector T) : Op T → vector T
  | .clear => v.clear
  | .push_back x => (v.push_back x).1
  | .emplace_back x => (v.emplace_back x).1
  | .pop_back => v.pop_back
  | .insert pos x => (v.insert pos x).1
  | .emplace pos x => (v.emplace pos x).1
  | .insert_count pos count x => (v.insert_count pos count x).1
  | .insert_range pos vals => (v.insert_range pos vals).1
  | .insert_ilist pos vals => (v.insert_ilist pos vals).1
  | .erase pos => v.erase pos
  | .eraseRange pos count => v.eraseRange pos count

/-- The states reachable from a default-constructed
`cesa::vector<T, N>` by any sequence of public mutating calls, each made
within its documented precondition. -/
inductive Reachable (N : Nat) : vector T → Prop where
  | default_ctor : Reachable N { max_size_ := N, elems := [] }
  | step {v : vector T} (op : Op T) :
      Reachable N v → op.Valid v → Reachable N (op.apply v)

/-! ## Helper lemmas -/

/-- The slot picture produced by `move_backward` plus placement-new —
prefix, new element, shifted suffix — is `List.insertIdx` at a valid
index. -/
theorem take_cons_drop_eq_insertIdx (l : List T) (i : Nat) (x : T) (h : i ≤ l.length) :
    l.take i ++ x :: l.drop i = l.insertIdx i x := by
  induction l generalizing i with
  | nil =>
    have hi : i = 0 := by simpa using h
    subst hi
    simp [List.insertIdx_zero]
  | cons a l ih =>
    cases i with
    | zero => simp [List.insertIdx_zero]
    | succ i =>
      simp only [List.take_succ_cons, List.drop_succ_cons, List.insertIdx_succ_cons,
        List.cons_append, List.cons.injEq, true_and]
      exact ih i (by simpa using h)

theorem length_take_cons_drop (l : List T) (i : Nat) (x : T) :
    (l.take i ++ x :: l.drop i).length = l.length + 1 := by
  simp only [List.length_append, List.length_cons, List.length_take, List.length_drop]
  omega

theorem insertIdx_take_self (l : List T) (i : Nat) (x : T) (h : i ≤ l.length) :
    (l.insertIdx i x).take i = l.take i := by
  rw [← take_cons_drop_eq_insertIdx l i x h, List.take_append_eq_append_take, List.take_take]
  have h1 : i ⊓ i = i := Nat.min_self i
  have h2 : i - (l.take i).length = 0 := by
    rw [List.length_take]
    omega
  rw [h1, h2]
  simp

theorem insertIdx_take_succ (l : List T) (i : Nat) (x : T) (h : i ≤ l.length) :
    (l.insertIdx i x).take (i + 1) = l.take i ++ [x] := by
  rw [← take_cons_drop_eq_insertIdx l i x h, List.take_append_eq_append_take, List.take_take]
  have h1 : (i + 1) ⊓ i = i := by omega
  have h2 : i + 1 - (l.take i).length = 1 := by
    rw [List.length_take]
    omega
  rw [h1, h2]
  simp

theorem insertIdx_drop_succ (l : List T) (i : Nat) (x : T) (h : i ≤ l.length) :
    (l.insertIdx i x).drop (i + 1) = l.drop i := by
  rw [← take_cons_drop_eq_insertIdx l i x h, List.drop_append_eq_append_drop]
  have h1 : (l.take i).drop (i + 1) = [] := by
    apply List.drop_eq_nil_of_le
    rw [List.length_take]
    omega
  have h2 : i + 1 - (l.take i).length = 1 := by
    rw [List.length_take]
    omega
  rw [h1, h2]
  simp

theorem insertIdx_getElem?_self (l : List T) (i : Nat) (x : T) (h : i ≤ l.length) :
    (l.insertIdx i x)[i]? = some x := by
  have hlen : i < (l.insertIdx i x).length := by
    rw [List.length_insertIdx i l h]
    omega
  rw [List.getElem?_eq_getElem hlen, List.getElem_insertIdx_self l x i h]

/-- Successful `emplace`: below capacity and at a valid position, the
element is inserted at that index and the index is returned. -/
theorem emplace_ok (v : vector T) (pos : Nat) (x : T) (hcap : v.size < v.max_size_)
    (hpos : pos ≤ v.size) :
    emplace v pos x = ({ v with elems := v.elems.insertIdx pos x }, .ok pos) := by
  have h1 : ¬ v.size ≥ v.max_size_ := by omega
  have hidx : (if pos = v.size then v.size else pos) = pos := by
    split <;> omega
  simp only [emplace, if_neg h1, hidx, take_cons_drop_eq_insertIdx v.elems pos x hpos]

/-- Failing `emplace`: at capacity the exception is thrown before any
mutation, so the state comes back unchanged. -/
theorem emplace_full (v : vector T) (pos : Nat) (x : T) (hcap : v.max_size_ ≤ v.size) :
    emplace v pos x = (v, .error capacityExceeded) := by
  simp only [emplace, if_pos hcap]

/-- `emplace` below capacity grows `size_` by exactly 1 (whatever the
position argument). -/
theorem emplace_fst_size (v : vector T) (pos : Nat) (x : T) (hcap : v.size < v.max_size_) :
    (emplace v pos x).1.size = v.size + 1 := by
  have h1 : ¬ v.size ≥ v.max_size_ := by omega
  simp only [emplace, if_neg h1]
  exact length_take_cons_drop v.elems _ x

/-- `emplace` never writes `max_size_`. -/
theorem emplace_fst_max (v : vector T) (pos : Nat) (x : T) :
    (emplace v pos x).1.max_size_ = v.max_size_ := by
  simp only [emplace]
  split <;> rfl

/-- `emplace` preserves the class invariant unconditionally: it refuses
to grow a full container. -/
theorem emplace_fst_WF (v : vector T) (pos : Nat) (x : T) (h : v.WF) :
    (emplace v pos x).1.WF := by
  rcases Nat.lt_or_ge v.size v.max_size_ with hlt | hge
  · unfold WF
    rw [emplace_fst_size v pos x hlt, emplace_fst_max v pos x]
    omega
  · rw [emplace_full v pos x hge]
    exact h

/-- A range insertion that fits within the remaining capacity inserts
all of `vals` in order at `it`, displacing `[it, size_)` to the right,
and returns the past-the-inserted-range iterator without an exception. -/
theorem insertRangeLoop_fits (vals : List T) (v : vector T) (it : Nat)
    (hfit : v.size + vals.length ≤ v.max_size_) (hit : it ≤ v.size) :
    insertRangeLoop v it vals =
      ({ v with elems := v.elems.take it ++ vals ++ v.elems.drop it },
       it + vals.length, none) := by
  induction vals generalizing v it with
  | nil =>
    simp [insertRangeLoop, List.take_append_drop]
  | cons x rest ih =>
    have hlt : v.size < v.max_size_ := by
      simp only [List.length_cons] at hfit
      omega
    have hv' := emplace_ok v it x hlt hit
    have hsz : ({ v with elems := v.elems.insertIdx it x } : vector T).size = v.size + 1 := by
      simpa [size] using List.length_insertIdx it v.elems hit
    have hgoal : insertRangeLoop { v with elems := v.elems.insertIdx it x } (it + 1) rest
        = ({ v with elems := v.elems.take it ++ x :: rest ++ v.elems.drop it },
           it + (x :: rest).length, none) := by
      rw [ih { v with elems := v.elems.insertIdx it x } (it + 1)
        (by rw [hsz]; simp only [List.length_cons] at hfit ⊢; omega)
        (by rw [hsz]; omega)]
      simp only [vector.mk.injEq, Prod.mk.injEq, true_and, and_true, eq_self_iff_true]
      refine ⟨?_, by simp only [List.length_cons]; omega⟩
      show (v.elems.insertIdx it x).take (it + 1) ++ rest ++ (v.elems.insertIdx it x).drop (it + 1)
          = v.elems.take it ++ x :: rest ++ v.elems.drop it
      rw [insertIdx_take_succ v.elems it x hit, insertIdx_drop_succ v.elems it x hit]
      simp
    rw [insertRangeLoop, show insert v it x = emplace v it x from rfl, hv']
    exact hgoal

/-- A range insertion that overflows the capacity inserts exactly the
leading `max_size_ - size_` elements that fit, leaves the container
full, and lets the capacity exception escape with the iterator value at
the point of the throw. -/
theorem insertRangeLoop_overflow (vals : List T) (v : vector T) (it : Nat)
    (hwf : v.WF) (hover : v.max_size_ < v.size + vals.length) (hit : it ≤ v.size) :
    insertRangeLoop v it vals =
      ({ v with elems :=
          v.elems.take it ++ vals.take (v.max_size_ - v.size) ++ v.elems.drop it },
       it + (v.max_size_ - v.size), some capacityExceeded) := by
  induction vals generalizing v it with
  | nil =>
    exact absurd hover (by unfold WF at hwf; simp; omega)
  | cons x rest ih =>
    rcases Nat.lt_or_ge v.size v.max_size_ with hlt | hge
    · have hv' := emplace_ok v it x hlt hit
      have hsz : ({ v with elems := v.elems.insertIdx it x } : vector T).size = v.size + 1 := by
        simpa [size] using List.length_insertIdx it v.elems hit
      have hcs : v.max_size_ - v.size = (v.max_size_ - (v.size + 1)) + 1 := by omega
      have hgoal : insertRangeLoop { v with elems := v.elems.insertIdx it x } (it + 1) rest
          = ({ v with elems :=
                v.elems.take it ++ (x :: rest).take (v.max_size_ - v.size) ++ v.elems.drop it },
             it + (v.max_size_ - v.size), some capacityExceeded) := by
        rw [ih { v with elems := v.elems.insertIdx it x } (it + 1)
          (by unfold WF; rw [hsz]; exact hlt)
          (by rw [hsz]; simp only [List.length_cons] at hover ⊢; omega)
          (by rw [hsz]; omega)]
        simp only [vector.mk.injEq, Prod.mk.injEq, true_and, and_true, eq_self_iff_true]
        refine ⟨?_, by rw [hsz]; omega⟩
        show (v.elems.insertIdx it x).take (it + 1)
              ++ rest.take (v.max_size_ - ({ v with elems := v.elems.insertIdx it x } : vector T).size)
              ++ (v.elems.insertIdx it x).drop (it + 1)
            = v.elems.take it ++ (x :: rest).take (v.max_size_ - v.size) ++ v.elems.drop it
        rw [insertIdx_take_succ v.elems it x hit, insertIdx_drop_succ v.elems it x hit,
          hsz, hcs, List.take_succ_cons]
        simp
      rw [insertRangeLoop, show insert v it x = emplace v it x from rfl, hv']
      exact hgoal
    · have hfull := emplace_full v it x hge
      rw [insertRangeLoop, show insert v it x = emplace v it x from rfl, hfull]
      have h0 : v.max_size_ - v.size = 0 := by omega
      simp [h0, List.take_append_drop]

/-- The `insert(pos, count, value)` loop is the range loop on `count`
copies of the value. -/
theorem insertCountLoop_eq_range (v : vector T) (it count : Nat) (x : T) :
    insertCountLoop v it count x = insertRangeLoop v it (List.replicate count x) := by
  induction count generalizing v it with
  | zero => rfl
  | succ c ih =>
    rw [List.replicate_succ, insertCountLoop, insertRangeLoop]
    rcases h : insert v it x with ⟨v', r⟩
    cases r with
    | ok i => exact ih v' (i + 1)
    | error e => rfl

/-- The range-insertion loop keeps the class invariant and never writes
`max_size_`, from any starting point. -/
theorem insertRangeLoop_WF (vals : List T) (v : vector T) (it : Nat) (h : v.WF) :
    (insertRangeLoop v it vals).1.WF
    ∧ (insertRangeLoop v it vals).1.max_size_ = v.max_size_ := by
  induction vals generalizing v it with
  | nil => exact ⟨h, rfl⟩
  | cons x rest ih =>
    rw [insertRangeLoop]
    rcases hm : insert v it x with ⟨v', r⟩
    have h1 : (emplace v it x).1 = v' := congrArg Prod.fst hm
    have hwf' : v'.WF := h1 ▸ emplace_fst_WF v it x h
    have hmax' : v'.max_size_ = v.max_size_ := h1 ▸ emplace_fst_max v it x
    cases r with
    | ok i => exact ⟨(ih v' (i + 1) hwf').1, (ih v' (i + 1) hwf').2.trans hmax'⟩
    | error e => exact ⟨hwf', hmax'⟩

/-- The shared moving loop of move construction/assignment: when the
destination has room for everything (always the case at its call sites),
it appends the moved values in order. -/
theorem moveInLoop_spec (vals : List T) (dst : vector T)
    (h : dst.size + vals.length ≤ dst.max_size_) :
    moveInLoop dst vals = { dst with elems := dst.elems ++ vals } := by
  induction vals generalizing dst with
  | nil => simp [moveInLoop]
  | cons x rest ih =>
    have hlt : dst.size < dst.max_size_ := by
      simp only [List.length_cons] at h
      omega
    have he : emplace_back dst x = ({ dst with elems := dst.elems ++ [x] }, .ok dst.size) := by
      rw [emplace_back, emplace_ok dst dst.size x hlt (Nat.le_refl _)]
      simp only [size, List.insertIdx_length_self]
    have hgoal : moveInLoop { dst with elems := dst.elems ++ [x] } rest
        = { dst with elems := dst.elems ++ x :: rest } := by
      rw [ih { dst with elems := dst.elems ++ [x] }
        (by
          simp only [size, List.length_append, List.length_cons, List.length_nil] at h ⊢
          omega)]
      simp
    rw [moveInLoop, he]
    exact hgoal

/-- `std::equal` on two copies of the same range is `true`. -/
theorem stdEqual_self [DecidableEq T] (l : List T) : stdEqual l l = true := by
  induction l with
  | nil => rfl
  | cons a l ih => simp [stdEqual, ih]

/-- `stdEqual` is symmetric (on all inputs, including mismatched
lengths, where both directions yield `true` by exhausting a range). -/
theorem stdEqual_comm [DecidableEq T] (a b : List T) : stdEqual a b = stdEqual b a := by
  induction a generalizing b with
  | nil => cases b <;> rfl
  | cons x as ih =>
    cases b with
    | nil => rfl
    | cons y bs =>
      by_cases h : x = y
      · subst h
        simp [stdEqual, ih bs]
      · simp [stdEqual, h, Ne.symm h]

/-- On equal-length ranges, `stdEqual` decides list equality. -/
theorem stdEqual_iff [DecidableEq T] (a b : List T) (h : a.length = b.length) :
    stdEqual a b = true ↔ a = b := by
  induction a generalizing b with
  | nil =>
    cases b with
    | nil => simp [stdEqual]
    | cons _ _ => simp at h
  | cons x as ih =>
    cases b with
    | nil => simp at h
    | cons y bs =>
      simp only [stdEqual]
      by_cases hxy : x = y
      · subst hxy
        simp [ih bs (by simpa using h)]
      · simp [hxy]

/-! ## Claims -/

/-- Claim C1: for every vector with `size() < N` and every valid
position `pos` in `[begin(), end()]`, `emplace(pos, args...)` shifts
every element from `pos` to the end one slot to the right preserving
their relative order, constructs the new element at `pos`, increments
the live count by exactly 1, and returns a position denoting the newly
inserted element. -/
theorem claim_C1 (v : vector T) (pos : Nat) (x : T)
    (hcap : v.size < v.max_size) (hpos : pos ≤ v.size) :
    (emplace v pos x).2 = .ok pos
    ∧ (emplace v pos x).1.size = v.size + 1
    ∧ (emplace v pos x).1.elems.take pos = v.elems.take pos
    ∧ (emplace v pos x).1.elems[pos]? = some x
    ∧ (emplace v pos x).1.elems.drop (pos + 1) = v.elems.drop pos := by
  have h := emplace_ok v pos x hcap hpos
  rw [h]
  exact ⟨rfl, by simpa [size] using List.length_insertIdx pos v.elems hpos,
    insertIdx_take_self v.elems pos x hpos,
    insertIdx_getElem?_self v.elems pos x hpos,
    insertIdx_drop_succ v.elems pos x hpos⟩

/-- Witness for C1: emplacing 7 at position 0 of a capacity-2 vector
holding `[5]`. -/
theorem claim_C1_witness :
    (emplace (⟨2, [5]⟩ : vector Nat) 0 7).2 = .ok 0
    ∧ (emplace (⟨2, [5]⟩ : vector Nat) 0 7).1.size = (⟨2, [5]⟩ : vector Nat).size + 1
    ∧ (emplace (⟨2, [5]⟩ : vector Nat) 0 7).1.elems.take 0
        = (⟨2, [5]⟩ : vector Nat).elems.take 0
    ∧ (emplace (⟨2, [5]⟩ : vector Nat) 0 7).1.elems[0]? = some 7
    ∧ (emplace (⟨2, [5]⟩ : vector Nat) 0 7).1.elems.drop 1
        = (⟨2, [5]⟩ : vector Nat).elems.drop 0 :=
  claim_C1 ⟨2, [5]⟩ 0 7 (by decide) (by decide)

/-- Claim C2: repeated `push_back` increases `size()` by exactly 1 per
call while `size() < max_size()`; when `size() == max_size()`, the next
`push_back` (and any `emplace`) fails with CapacityExceeded, checked
before any mutation, so both the size and the stored elements are
unchanged on failure. -/
theorem claim_C2 (v : vector T) (x : T) :
    (v.size < v.max_size →
      push_back v x = ({ v with elems := v.elems ++ [x] }, .ok v.size)
      ∧ (push_back v x).1.size = v.size + 1)
    ∧ (v.size = v.max_size →
      push_back v x = (v, .error capacityExceeded)
      ∧ ∀ (pos : Nat) (y : T), emplace v pos y = (v, .error capacityExceeded)) := by
  constructor
  · intro hlt
    have h : push_back v x = ({ v with elems := v.elems ++ [x] }, .ok v.size) := by
      rw [push_back, emplace_ok v v.size x hlt (Nat.le_refl _)]
      simp only [size, List.insertIdx_length_self]
    refine ⟨h, ?_⟩
    rw [h]
    show (v.elems ++ [x]).length = v.size + 1
    simp [size]
  · intro heq
    have hge : v.max_size_ ≤ v.size := Nat.le_of_eq heq.symm
    exact ⟨by rw [push_back]; exact emplace_full v v.size x hge,
      fun pos y => emplace_full v pos y hge⟩

/-- Witness for C2: a capacity-1 vector accepts one `push_back` and
rejects the next one (and any `emplace`) unchanged. -/
theorem claim_C2_witness :
    (push_back (⟨1, []⟩ : vector Nat) 4 = (⟨1, [4]⟩, .ok 0)
      ∧ (push_back (⟨1, []⟩ : vector Nat) 4).1.size = (⟨1, []⟩ : vector Nat).size + 1)
    ∧ (push_back (⟨1, [4]⟩ : vector Nat) 9 = (⟨1, [4]⟩, .error capacityExceeded)
      ∧ emplace (⟨1, [4]⟩ : vector Nat) 0 9 = (⟨1, [4]⟩, .error capacityExceeded)) := by
  have h1 := (claim_C2 (⟨1, []⟩ : vector Nat) 4).1 (by decide)
  have h2 := (claim_C2 (⟨1, [4]⟩ : vector Nat) 9).2 (by decide)
  exact ⟨⟨h1.1, h1.2⟩, ⟨h2.1, h2.2 0 9⟩⟩

/-- Claim C4: for a valid iterator pair (`index + count <= size()`),
`erase(first, last)` shifts the elements from `last` onward into the gap
starting at `first` preserving their relative order and values,
decrements the live count by `distance(first, last)`, and keeps the
capacity. -/
theorem claim_C4 (v : vector T) (index count : Nat) (h : index + count ≤ v.size) :
    (eraseRange v index count).elems = v.elems.take index ++ v.elems.drop (index + count)
    ∧ (eraseRange v index count).size = v.size - count
    ∧ (eraseRange v index count).max_size_ = v.max_size_ := by
  have hs : v.size = v.elems.length := rfl
  have hmain : (eraseRange v index count).elems
      = v.elems.take index ++ v.elems.drop (index + count) := by
    rw [eraseRange]
    split
    · next hidx =>
      show (v.elems.take index ++ v.elems.drop (index + count)).take (v.size - count)
          = v.elems.take index ++ v.elems.drop (index + count)
      apply List.take_of_length_le
      simp only [List.length_append, List.length_take, List.length_drop]
      omega
    · next hidx =>
      have hic : index = v.elems.length := by omega
      have hc0 : count = 0 := by omega
      subst hc0
      show v.elems.take (v.size - 0) = v.elems.take index ++ v.elems.drop (index + 0)
      rw [hic]
      simp [hs]
  refine ⟨hmain, ?_, ?_⟩
  · show (eraseRange v index count).elems.length = v.size - count
    rw [hmain]
    simp only [List.length_append, List.length_take, List.length_drop]
    omega
  · rw [eraseRange]
    split <;> rfl

/-- Witness for C4, the spec's concrete scenario: on contents
`[1,2,3,4,5]`, `erase(begin()+1, begin()+3)` yields `[1,4,5]`. -/
theorem claim_C4_witness :
    (eraseRange (⟨5, [1, 2, 3, 4, 5]⟩ : vector Nat) 1 2).elems = [1, 4, 5]
    ∧ (eraseRange (⟨5, [1, 2, 3, 4, 5]⟩ : vector Nat) 1 2).size = 3 := by
  have h := claim_C4 (⟨5, [1, 2, 3, 4, 5]⟩ : vector Nat) 1 2 (by decide)
  exact ⟨h.1, h.2.1⟩

/-- Claim C6: `at(i)` fails with IndexOutOfRange exactly when
`i >= size()`, returns the element at index `i` when `i < size()`, and
in either case leaves the container's state unchanged. -/
theorem claim_C6 (v : vector T) (i : Nat) :
    (at' v i).1 = v
    ∧ (∀ hi : i < v.size, (at' v i).2 = .ok (v.elems.get ⟨i, hi⟩))
    ∧ (v.size ≤ i → (at' v i).2 = .error indexOutOfRange)
    ∧ ((at' v i).2 = .error indexOutOfRange ↔ v.size ≤ i) := by
  rw [at']
  split
  · next hge =>
    exact ⟨rfl, fun hi => absurd hi (by omega), fun _ => rfl, by simp [hge]⟩
  · next hlt =>
    have hlt' : i < v.size := Nat.lt_of_not_le hlt
    refine ⟨rfl, fun hi => rfl, fun hge => absurd hge (by omega), ?_⟩
    simp only [Prod.snd]
    constructor
    · intro hcontra
      exact absurd hcontra (by simp)
    · intro hge
      exact absurd hge (by omega)

/-- Witness for C6 on a capacity-3 vector holding `[7, 8]`, probing
index 1 (the `∀`-hypothesis is discharged at `hi : 1 < 2`). -/
theorem claim_C6_witness :
    (at' (⟨3, [7, 8]⟩ : vector Nat) 1).1 = (⟨3, [7, 8]⟩ : vector Nat)
    ∧ (at' (⟨3, [7, 8]⟩ : vector Nat) 1).2 = .ok 8
    ∧ ((at' (⟨3, [7, 8]⟩ : vector Nat) 1).2 = .error indexOutOfRange
        ↔ (⟨3, [7, 8]⟩ : vector Nat).size ≤ 1) := by
  have h := claim_C6 (⟨3, [7, 8]⟩ : vector Nat) 1
  exact ⟨h.1, h.2.1 (by decide), h.2.2.2⟩

/-- Claim C9: `pop_back()` on a non-empty container destroys the last
live element and decrements the live count by 1; on an empty container
it is a silent no-op that signals no error and leaves the container
unchanged (its return type carries no error channel at all). -/
theorem claim_C9 (v : vector T) :
    (0 < v.size →
      (pop_back v).elems = v.elems.dropLast
      ∧ (pop_back v).size = v.size - 1
      ∧ (pop_back v).max_size_ = v.max_size_)
    ∧ (v.size = 0 → pop_back v = v) := by
  have hs : v.size = v.elems.length := rfl
  constructor
  · intro hpos
    rw [pop_back, if_pos hpos]
    refine ⟨?_, ?_, rfl⟩
    · show v.elems.take (v.size - 1) = v.elems.dropLast
      rw [List.dropLast_eq_take, hs]
    · show (v.elems.take (v.size - 1)).length = v.size - 1
      rw [List.length_take]
      omega
  · intro h0
    rw [pop_back, if_neg (by omega)]

/-- Witness for C9: popping `[3, 4]` gives `[3]`; popping the empty
vector is the identity. -/
theorem claim_C9_witness :
    ((pop_back (⟨2, [3, 4]⟩ : vector Nat)).elems = ([3, 4] : List Nat).dropLast
      ∧ (pop_back (⟨2, [3, 4]⟩ : vector Nat)).size = (⟨2, [3, 4]⟩ : vector Nat).size - 1)
    ∧ pop_back (⟨2, []⟩ : vector Nat) = (⟨2, []⟩ : vector Nat) := by
  have h1 := (claim_C9 (⟨2, [3, 4]⟩ : vector Nat)).1 (by decide)
  have h2 := (claim_C9 (⟨2, []⟩ : vector Nat)).2 (by decide)
  exact ⟨⟨h1.1, h1.2.1⟩, h2⟩

/-- Claim C10: both error kinds are raised as the same exception type
`std::out_of_range` — checked-access failure with message
"index out of range" and insertion at full capacity with message
"vector capacity exceeded" — so catching by exception type cannot
distinguish them; only the message strings differ. -/
theorem claim_C10 (v : vector T) (i pos : Nat) (x : T)
    (hi : v.size ≤ i) (hfull : v.size = v.max_size) :
    (at' v i).2 = .error indexOutOfRange
    ∧ (emplace v pos x).2 = .error capacityExceeded
    ∧ indexOutOfRange.typeName = "std::out_of_range"
    ∧ capacityExceeded.typeName = "std::out_of_range"
    ∧ indexOutOfRange.typeName = capacityExceeded.typeName
    ∧ indexOutOfRange.message = "index out of range"
    ∧ capacityExceeded.message = "vector capacity exceeded"
    ∧ indexOutOfRange.message ≠ capacityExceeded.message := by
  refine ⟨?_, ?_, rfl, rfl, rfl, rfl, rfl, by decide⟩
  · rw [at', dif_pos hi]
  · rw [emplace_full v pos x (Nat.le_of_eq hfull.symm)]

/-- Witness for C10 on a full capacity-1 vector, probing index 5. -/
theorem claim_C10_witness :
    (at' (⟨1, [2]⟩ : vector Nat) 5).2 = .error indexOutOfRange
    ∧ (emplace (⟨1, [2]⟩ : vector Nat) 0 3).2 = .error capacityExceeded
    ∧ indexOutOfRange.typeName = capacityExceeded.typeName
    ∧ indexOutOfRange.message ≠ capacityExceeded.message := by
  have h := claim_C10 (⟨1, [2]⟩ : vector Nat) 5 0 3 (by decide) (by decide)
  exact ⟨h.1, h.2.1, h.2.2.2.2.1, h.2.2.2.2.2.2.2⟩

/-- Claim C3: every multi-element insertion at a valid position keeps
the relative order of the inserted elements and of the displaced
elements; when the bound would be exceeded partway through, the
operation fails with CapacityExceeded after having inserted exactly the
leading `max_size() - size()` elements that fit, leaving the container
holding `max_size()` elements.  The count overload is the range loop on
`count` copies, and the initializer-list overload forwards to the range
overload. -/
theorem claim_C3 (v : vector T) (pos : Nat) (vals : List T) (count : Nat) (x : T)
    (hwf : v.WF) (hpos : pos ≤ v.size) :
    (v.size + vals.length ≤ v.max_size →
      insert_range v pos vals
        = ({ v with elems := v.elems.take pos ++ vals ++ v.elems.drop pos },
           pos + vals.length, none))
    ∧ (v.max_size < v.size + vals.length →
      insert_range v pos vals
        = ({ v with elems :=
              v.elems.take pos ++ vals.take (v.max_size - v.size) ++ v.elems.drop pos },
           pos + (v.max_size - v.size), some capacityExceeded)
      ∧ (insert_range v pos vals).1.size = v.max_size)
    ∧ insert_count v pos count x = insert_range v pos (List.replicate count x)
    ∧ insert_ilist v pos vals = insert_range v pos vals := by
  refine ⟨fun hfit => insertRangeLoop_fits vals v pos hfit hpos,
    fun hover => ?_, insertCountLoop_eq_range v pos count x, rfl⟩
  have h := insertRangeLoop_overflow vals v pos hwf hover hpos
  refine ⟨h, ?_⟩
  rw [show insert_range v pos vals = insertRangeLoop v pos vals from rfl, h]
  show (v.elems.take pos ++ vals.take (v.max_size_ - v.size)
        ++ v.elems.drop pos).length = v.max_size
  simp only [List.length_append, List.length_take, List.length_drop]
  have hs : v.size = v.elems.length := rfl
  have hm : v.max_size = v.max_size_ := rfl
  unfold WF at hwf
  omega

/-- Witness for C3: inserting `[8, 9, 10]` at position 1 of the
capacity-3 vector `[5, 6]` inserts only `8` (what fits), ends full at
`[5, 8, 6]`, and fails with the capacity exception; the fitting case and
the other overloads are exercised at the same input. -/
theorem claim_C3_witness :
    ((⟨4, [5, 6]⟩ : vector Nat).size + ([8, 9] : List Nat).length
          ≤ (⟨4, [5, 6]⟩ : vector Nat).max_size →
      insert_range (⟨4, [5, 6]⟩ : vector Nat) 1 [8, 9] = (⟨4, [5, 8, 9, 6]⟩, 3, none))
    ∧ ((⟨3, [5, 6]⟩ : vector Nat).max_size
          < (⟨3, [5, 6]⟩ : vector Nat).size + ([8, 9, 10] : List Nat).length →
      insert_range (⟨3, [5, 6]⟩ : vector Nat) 1 [8, 9, 10]
          = (⟨3, [5, 8, 6]⟩, 2, some capacityExceeded)
      ∧ (insert_range (⟨3, [5, 6]⟩ : vector Nat) 1 [8, 9, 10]).1.size = 3)
    ∧ insert_count (⟨3, [5, 6]⟩ : vector Nat) 1 2 9
        = insert_range (⟨3, [5, 6]⟩ : vector Nat) 1 (List.replicate 2 9)
    ∧ insert_ilist (⟨3, [5, 6]⟩ : vector Nat) 1 [8, 9, 10]
        = insert_range (⟨3, [5, 6]⟩ : vector Nat) 1 [8, 9, 10] := by
  have hfit := (claim_C3 (⟨4, [5, 6]⟩ : vector Nat) 1 [8, 9] 0 0 (by decide) (by decide)).1
  have hrest := claim_C3 (⟨3, [5, 6]⟩ : vector Nat) 1 [8, 9, 10] 2 9 (by decide) (by decide)
  exact ⟨fun h => hfit h, fun h => hrest.2.1 h, hrest.2.2.1, hrest.2.2.2⟩

/-- Each public mutating call preserves the class invariant and never
writes `max_size_`. -/
theorem apply_WF (v : vector T) (op : Op T) (h : v.WF) :
    (op.apply v).WF ∧ (op.apply v).max_size_ = v.max_size_ := by
  have hs : v.size = v.elems.length := rfl
  cases op with
  | clear => exact ⟨Nat.zero_le _, rfl⟩
  | push_back x => exact ⟨emplace_fst_WF v _ x h, emplace_fst_max v _ x⟩
  | emplace_back x => exact ⟨emplace_fst_WF v _ x h, emplace_fst_max v _ x⟩
  | pop_back =>
    constructor
    · show (pop_back v).WF
      unfold WF at h ⊢
      rw [pop_back]
      split
      · show (v.elems.take (v.size - 1)).length ≤ v.max_size_
        rw [List.length_take]
        omega
      · exact h
    · show (pop_back v).max_size_ = v.max_size_
      rw [pop_back]
      split <;> rfl
  | insert pos x => exact ⟨emplace_fst_WF v pos x h, emplace_fst_max v pos x⟩
  | emplace pos x => exact ⟨emplace_fst_WF v pos x h, emplace_fst_max v pos x⟩
  | insert_count pos count x =>
    have h1 : insert_count v pos count x = insertRangeLoop v pos (List.replicate count x) :=
      insertCountLoop_eq_range v pos count x
    have h2 := insertRangeLoop_WF (List.replicate count x) v pos h
    constructor
    · show (insert_count v pos count x).1.WF
      rw [h1]
      exact h2.1
    · show (insert_count v pos count x).1.max_size_ = v.max_size_
      rw [h1]
      exact h2.2
  | insert_range pos vals =>
    exact ⟨(insertRangeLoop_WF vals v pos h).1, (insertRangeLoop_WF vals v pos h).2⟩
  | insert_ilist pos vals =>
    exact ⟨(insertRangeLoop_WF vals v pos h).1, (insertRangeLoop_WF vals v pos h).2⟩
  | erase pos =>
    constructor
    · show (erase v pos).WF
      unfold WF at h ⊢
      rw [erase]
      split
      · show (v.elems.take pos ++ v.elems.drop (pos + 1)).length ≤ v.max_size_
        simp only [List.length_append, List.length_take, List.length_drop]
        omega
      · exact h
    · show (erase v pos).max_size_ = v.max_size_
      rw [erase]
      split <;> rfl
  | eraseRange pos count =>
    constructor
    · show (eraseRange v pos count).WF
      unfold WF at h ⊢
      rw [eraseRange]
      split
      · show ((v.elems.take pos ++ v.elems.drop (pos + count)).take (v.size - count)).length
            ≤ v.max_size_
        simp only [List.length_take, List.length_append, List.length_drop]
        omega
      · show (v.elems.take (v.size - count)).length ≤ v.max_size_
        rw [List.length_take]
        omega
    · show (eraseRange v pos count).max_size_ = v.max_size_
      rw [eraseRange]
      split <;> rfl

/-- Claim C5: every state reachable from a default-constructed
`vector<T, N>` by a sequence of public operations, each called within
its documented preconditions, satisfies `0 <= size() <= max_size()`
(the lower bound being inherent in the unsigned count), and
`max_size()` returns `N` in every such state. -/
theorem claim_C5 {N : Nat} (v : vector T) (h : Reachable N v) :
    v.size ≤ v.max_size ∧ v.max_size = N := by
  induction h with
  | default_ctor => exact ⟨Nat.zero_le _, rfl⟩
  | step op hr hv ih =>
    exact ⟨(apply_WF _ op ih.1).1, ((apply_WF _ op ih.1).2).trans ih.2⟩

/-- Witness for C5: the state reached by one `push_back(7)` on a
default-constructed capacity-2 vector. -/
theorem claim_C5_witness :
    (⟨2, [7]⟩ : vector Nat).size ≤ (⟨2, [7]⟩ : vector Nat).max_size
    ∧ (⟨2, [7]⟩ : vector Nat).max_size = 2 :=
  claim_C5 ⟨2, [7]⟩ (Reachable.step (Op.push_back 7) Reachable.default_ctor trivial)

/-- Claim C7: move construction and move assignment produce a
destination whose size and ordered element values equal the source's
prior ones, and leave the source with `size() == 0` — elements
destroyed and count reset, not merely an unspecified state. -/
theorem claim_C7 (s dst : vector T) (hs : s.WF) (hcap : dst.max_size_ = s.max_size_) :
    moveCtor s = ({ max_size_ := s.max_size_, elems := s.elems },
                  { max_size_ := s.max_size_, elems := [] })
    ∧ (moveCtor s).1.size = s.size
    ∧ (moveCtor s).1.elems = s.elems
    ∧ (moveCtor s).2.size = 0
    ∧ moveAssign dst s = ({ max_size_ := dst.max_size_, elems := s.elems },
                          { max_size_ := s.max_size_, elems := [] })
    ∧ (moveAssign dst s).1.size = s.size
    ∧ (moveAssign dst s).1.elems = s.elems
    ∧ (moveAssign dst s).2.size = 0 := by
  have hwf := hs
  unfold WF at hwf
  have h1 : moveCtor s = ({ max_size_ := s.max_size_, elems := s.elems },
      { max_size_ := s.max_size_, elems := [] }) := by
    unfold moveCtor
    rw [moveInLoop_spec s.elems { max_size_ := s.max_size_, elems := [] }
      (by simpa [size] using hwf)]
    rfl
  have h2 : moveAssign dst s = ({ max_size_ := dst.max_size_, elems := s.elems },
      { max_size_ := s.max_size_, elems := [] }) := by
    unfold moveAssign clear
    rw [moveInLoop_spec s.elems { dst with elems := [] }
      (by simp only [size, List.length_nil, Nat.zero_add]; rw [hcap]; exact hwf)]
    rfl
  refine ⟨h1, by rw [h1], by rw [h1], by rw [h1]; rfl, h2, by rw [h2]; rfl, by rw [h2],
    by rw [h2]; rfl⟩

/-- Witness for C7: moving out of `[4, 6]` (capacity 3) by construction
and by assignment into `[9]`. -/
theorem claim_C7_witness :
    moveCtor (⟨3, [4, 6]⟩ : vector Nat) = (⟨3, [4, 6]⟩, ⟨3, []⟩)
    ∧ (moveCtor (⟨3, [4, 6]⟩ : vector Nat)).1.size = (⟨3, [4, 6]⟩ : vector Nat).size
    ∧ (moveCtor (⟨3, [4, 6]⟩ : vector Nat)).2.size = 0
    ∧ moveAssign (⟨3, [9]⟩ : vector Nat) (⟨3, [4, 6]⟩ : vector Nat) = (⟨3, [4, 6]⟩, ⟨3, []⟩)
    ∧ (moveAssign (⟨3, [9]⟩ : vector Nat) (⟨3, [4, 6]⟩ : vector Nat)).2.size = 0 := by
  have h := claim_C7 (⟨3, [4, 6]⟩ : vector Nat) (⟨3, [9]⟩ : vector Nat) (by decide) rfl
  exact ⟨h.1, h.2.1, h.2.2.2.1, h.2.2.2.2.1, h.2.2.2.2.2.2.2⟩

/-- `Nat`'s boolean equality is symmetric (used for the size check in
`operator==`). -/
theorem beq_nat_comm (m n : Nat) : (m == n) = (n == m) := by
  by_cases h : m = n
  · rw [h]
  · have h1 : (m == n) = false := beq_eq_false_iff_ne.mpr h
    have h2 : (n == m) = false := beq_eq_false_iff_ne.mpr (Ne.symm h)
    rw [h1, h2]

/-- Claim C8: `operator==` on two vectors of the same element type and
possibly different capacities returns `true` iff their sizes are equal
and their live elements are pairwise equal in order; the relation is
reflexive and symmetric, and the capacities play no role in it. -/
theorem claim_C8 [DecidableEq T] (a b : vector T) :
    (eqOp a b = true ↔ (a.size = b.size ∧ a.elems = b.elems))
    ∧ eqOp a a = true
    ∧ eqOp a b = eqOp b a
    ∧ (∀ c1 c2 : Nat, eqOp { a with max_size_ := c1 } { b with max_size_ := c2 } = eqOp a b) := by
  refine ⟨⟨?_, ?_⟩, ?_, ?_, fun c1 c2 => rfl⟩
  · intro h
    unfold eqOp at h
    rw [Bool.and_eq_true] at h
    have hlen : a.size = b.size := by
      have h1 := h.1
      rwa [beq_iff_eq] at h1
    exact ⟨hlen, (stdEqual_iff a.elems b.elems hlen).mp h.2⟩
  · intro h
    unfold eqOp
    rw [h.2, h.1]
    simp [stdEqual_self]
  · unfold eqOp
    simp [stdEqual_self]
  · unfold eqOp
    rw [stdEqual_comm, beq_nat_comm]

/-- Witness for C8 over `Nat`, comparing `[4, 6]` at capacity 9 with
`[4, 6]` at capacity 2 (and a differing pair). -/
theorem claim_C8_witness :
    (eqOp (⟨9, [4, 6]⟩ : vector Nat) (⟨2, [4, 6]⟩ : vector Nat) = true
      ↔ ((⟨9, [4, 6]⟩ : vector Nat).size = (⟨2, [4, 6]⟩ : vector Nat).size
          ∧ (⟨9, [4, 6]⟩ : vector Nat).elems = (⟨2, [4, 6]⟩ : vector Nat).elems))
    ∧ eqOp (⟨9, [4, 6]⟩ : vector Nat) (⟨9, [4, 6]⟩ : vector Nat) = true
    ∧ eqOp (⟨9, [4, 6]⟩ : vector Nat) (⟨2, [4, 6]⟩ : vector Nat)
        = eqOp (⟨2, [4, 6]⟩ : vector Nat) (⟨9, [4, 6]⟩ : vector Nat) := by
  have h := claim_C8 (⟨9, [4, 6]⟩ : vector Nat) (⟨2, [4, 6]⟩ : vector Nat)
  exact ⟨h.1, h.2.1, h.2.2.1⟩

end vector

end cesa
